import Mathlib

/-
Verification of the shared-stack product/tag tracking and reconciliation
model against its natural-language specification.

The definitions below are a shallow embedding of the Python classes in
shared_stack.py (and, where noted, the variant in tags.py): Python dicts
become association lists with first-binding-wins lookup, Python sets become
duplicate-free lists where only membership is observed, exceptions become
Option results (none = the corresponding Python code raised), and the
external eups package manager is an abstract oracle whose reactions are
parameters of the model.
-/

set_option maxHeartbeats 1000000

namespace SharedStack

/-- Association-list lookup, modelling a Python dict read: the first binding
for the key wins; `none` models a `KeyError`. -/
def alookup {α : Type} : List (String × α) → String → Option α
  | [], _ => none
  | (k, v) :: rest, q => if k = q then some v else alookup rest q

/-- Update the first binding of a key in place, modelling mutation of the
object stored in a Python dict entry. A missing key leaves the list
unchanged. -/
def aupdate {α : Type} (f : α → α) : List (String × α) → String → List (String × α)
  | [], _ => []
  | (k, v) :: rest, q => if k = q then (k, f v) :: rest else (k, v) :: aupdate f rest q

/-- Python `set.add`: append the element unless already present. -/
def set_add (l : List String) (x : String) : List String :=
  if x ∈ l then l else l ++ [x]

/-- Python `set.union(*sets)` over a non-empty collection: collect all
members, deduplicating. -/
def set_union_all (ls : List (List String)) : List String :=
  ls.foldl (fun acc ts => acc ++ ts.filter (fun x => ¬ (x ∈ acc))) []

theorem alookup_append_some {α : Type} {l m : List (String × α)} {k : String} {v : α}
    (h : alookup l k = some v) : alookup (l ++ m) k = some v := by
  induction l with
  | nil => simp [alookup] at h
  | cons hd tl ih =>
    obtain ⟨k', v'⟩ := hd
    by_cases hk : k' = k
    · simp [alookup, hk] at h ⊢; exact h
    · simp [alookup, hk] at h ⊢; exact ih h

theorem alookup_append_none {α : Type} {l : List (String × α)} {k : String}
    (h : alookup l k = none) (m : List (String × α)) :
    alookup (l ++ m) k = alookup m k := by
  induction l with
  | nil => simp
  | cons hd tl ih =>
    obtain ⟨k', v'⟩ := hd
    by_cases hk : k' = k
    · simp [alookup, hk] at h
    · simp [alookup, hk] at h ⊢; exact ih h

theorem alookup_append_single_other {α : Type} {l : List (String × α)} {v w : String}
    (u : α) (hw : w ≠ v) : alookup (l ++ [(v, u)]) w = alookup l w := by
  rcases h2 : alookup l w with _ | ts
  · rw [alookup_append_none h2]
    have hvw : ¬ (v = w) := fun hh => hw hh.symm
    simp [alookup, hvw]
  · exact alookup_append_some h2

theorem alookup_aupdate_self {α : Type} (f : α → α) (l : List (String × α)) (k : String) :
    alookup (aupdate f l k) k = (alookup l k).map f := by
  induction l with
  | nil => simp [alookup, aupdate]
  | cons hd tl ih =>
    obtain ⟨k', v'⟩ := hd
    by_cases hk : k' = k
    · simp [alookup, aupdate, hk]
    · simp [alookup, aupdate, hk, ih]

theorem alookup_aupdate_other {α : Type} (f : α → α) (l : List (String × α)) {k q : String}
    (h : q ≠ k) : alookup (aupdate f l k) q = alookup l q := by
  induction l with
  | nil => simp [aupdate]
  | cons hd tl ih =>
    obtain ⟨k', v'⟩ := hd
    by_cases hk : k' = k
    · have hq : ¬ (k = q) := fun hh => h hh.symm
      simp [aupdate, hk, alookup, hq]
    · simp [aupdate, hk, alookup, ih]

theorem aupdate_keys {α : Type} (f : α → α) (l : List (String × α)) (k : String) :
    (aupdate f l k).map Prod.fst = l.map Prod.fst := by
  induction l with
  | nil => rfl
  | cons hd tl ih =>
    obtain ⟨k', v'⟩ := hd
    by_cases hk : k' = k
    · simp [aupdate, hk]
    · simp [aupdate, hk, ih]

theorem alookup_none_iff {α : Type} (l : List (String × α)) (k : String) :
    alookup l k = none ↔ k ∉ l.map Prod.fst := by
  induction l with
  | nil => simp [alookup]
  | cons hd tl ih =>
    obtain ⟨k', v'⟩ := hd
    by_cases hk : k' = k
    · simp [alookup, hk]
    · simp [alookup, hk, ih]
      intro h; exact fun hh => hk hh.symm

theorem alookup_isSome_iff {α : Type} (l : List (String × α)) (k : String) :
    (alookup l k).isSome ↔ k ∈ l.map Prod.fst := by
  rw [Option.isSome_iff_ne_none]
  constructor
  · intro h
    by_contra hmem
    exact h ((alookup_none_iff l k).mpr hmem)
  · intro h hnone
    exact ((alookup_none_iff l k).mp hnone) h

theorem alookup_mem {α : Type} {l : List (String × α)} {k : String} {v : α}
    (h : alookup l k = some v) : (k, v) ∈ l := by
  induction l with
  | nil => simp [alookup] at h
  | cons hd tl ih =>
    obtain ⟨k', v'⟩ := hd
    by_cases hk : k' = k
    · subst hk
      simp [alookup] at h
      simp [h]
    · simp [alookup, hk] at h
      exact List.mem_cons_of_mem _ (ih h)

theorem alookup_of_mem_nodup {α : Type} {l : List (String × α)} {k : String} {v : α}
    (hnd : (l.map Prod.fst).Nodup) (h : (k, v) ∈ l) : alookup l k = some v := by
  induction l with
  | nil => simp at h
  | cons hd tl ih =>
    obtain ⟨k', v'⟩ := hd
    rw [List.map_cons, List.nodup_cons] at hnd
    rcases List.mem_cons.mp h with h | h
    · have h1 : k = k' ∧ v = v' := by simpa using h
      obtain ⟨h1, h2⟩ := h1
      subst h1; subst h2
      simp [alookup]
    · have hk : ¬ (k' = k) := by
        intro he; subst he
        exact hnd.1 (by simpa using List.mem_map_of_mem Prod.fst h)
      simp [alookup, hk]
      exact ih hnd.2 h

theorem mem_set_add (l : List String) (a x : String) :
    x ∈ set_add l a ↔ x ∈ l ∨ x = a := by
  by_cases h : a ∈ l
  · simp only [set_add, if_pos h]
    constructor
    · exact Or.inl
    · rintro (hx | hx)
      · exact hx
      · exact hx ▸ h
  · simp [set_add, h]

theorem mem_union_fold (ls : List (List String)) (acc : List String) (x : String) :
    x ∈ ls.foldl (fun acc ts => acc ++ ts.filter (fun y => ¬ (y ∈ acc))) acc ↔
      x ∈ acc ∨ ∃ ts ∈ ls, x ∈ ts := by
  induction ls generalizing acc with
  | nil => simp
  | cons hd tl ih =>
    simp only [List.foldl_cons, ih]
    constructor
    · rintro (h | h)
      · simp at h
        rcases h with h | ⟨h, _⟩
        · exact Or.inl h
        · exact Or.inr ⟨hd, by simp, h⟩
      · obtain ⟨ts, hts, hx⟩ := h
        exact Or.inr ⟨ts, by simp [hts], hx⟩
    · rintro (h | ⟨ts, hts, hx⟩)
      · by_cases hx : x ∈ hd.filter (fun y => ¬ (y ∈ acc))
        · exact Or.inl (by simp [h])
        · exact Or.inl (by simp [h])
      · simp at hts
        rcases hts with hts | hts
        · subst hts
          by_cases hacc : x ∈ acc
          · exact Or.inl (by simp [hacc])
          · exact Or.inl (by simp [hx, hacc])
        · exact Or.inr ⟨ts, hts, hx⟩

theorem mem_set_union_all (ls : List (List String)) (x : String) :
    x ∈ set_union_all ls ↔ ∃ ts ∈ ls, x ∈ ts := by
  unfold set_union_all
  rw [mem_union_fold]
  simp

/-- `Product` from shared_stack.py: a product name together with the mapping
from version identifier to the set of tags applied to that version
(`self._versions`). -/
structure Product where
  name : String
  _versions : List (String × List String)
deriving DecidableEq

/-- `Product.add_version`: register a version with an empty tag set unless it
is already present. -/
def Product.add_version (p : Product) (version : String) : Product :=
  match alookup p._versions version with
  | some _ => p
  | none => { p with _versions := p._versions ++ [(version, [])] }

/-- `Product.add_tag`: add a tag to the set held for `version`; `none` models
the `KeyError` raised when `version` was never registered. -/
def Product.add_tag (p : Product) (version tag : String) : Option Product :=
  match alookup p._versions version with
  | some _ => some { p with _versions := aupdate (fun ts => set_add ts tag) p._versions version }
  | none => none

/-- `Product.versions`: all version keys, or only the versions whose tag set
contains the filter tag. -/
def Product.versions (p : Product) (tag : Option String) : List String :=
  match tag with
  | none => p._versions.map Prod.fst
  | some t => (p._versions.filter (fun kv => t ∈ kv.2)).map Prod.fst

/-- `Product.tags`: with a version argument, the tag set of exactly that
version (`none` models the `KeyError` for an unregistered version); with no
argument, `set.union(*self._versions.values())`, whose `none` case models the
`TypeError` raised when there are no registered versions at all. -/
def Product.tags (p : Product) (version : Option String) : Option (List String) :=
  match version with
  | some v => alookup p._versions v
  | none =>
    if p._versions = [] then none
    else some (set_union_all (p._versions.map Prod.snd))

/-- `ProductTracker` from shared_stack.py: the mapping from product name to
`Product` (`self._products`). -/
structure ProductTracker where
  _products : List (String × Product)
deriving DecidableEq

/-- `ProductTracker.tags_for_product`: the tag set of the named product; the
`KeyError` for an unknown product is caught and yields the empty set. -/
def ProductTracker.tags_for_product (t : ProductTracker) (product_name : String) :
    Option (List String) :=
  match alookup t._products product_name with
  | none => some []
  | some p => p.tags none

/-- `ProductTracker.products_for_tag`: every (product name, version) pair
whose version carries the tag. -/
def ProductTracker.products_for_tag (t : ProductTracker) (tag : String) :
    List (String × String) :=
  (t._products.map (fun kv => (kv.2.versions (some tag)).map (fun v => (kv.2.name, v)))).flatten

/-- `ProductTracker.current`: `some none` models the implicit `None` returned
for an unknown product; the outer `none` models the `IndexError` raised when
the product is known but no version is tagged "current". -/
def ProductTracker.current (t : ProductTracker) (product_name : String) :
    Option (Option String) :=
  match alookup t._products product_name with
  | none => some none
  | some p =>
    match p.versions (some "current") with
    | [] => none
    | v :: _ => some (some v)

/-- `ProductTracker.has_version`: total boolean version lookup. -/
def ProductTracker.has_version (t : ProductTracker) (product_name version : String) : Bool :=
  match alookup t._products product_name with
  | none => false
  | some p => version ∈ p.versions none

/-- The `if product not in self._products: self._products[product] =
Product(product)` step of `ProductTracker.insert`. -/
def tracker_ensure (t : ProductTracker) (product : String) : List (String × Product) :=
  match alookup t._products product with
  | some _ => t._products
  | none => t._products ++ [(product, ⟨product, []⟩)]

/-- `ProductTracker.insert`: the single mutation entry point. The `Option`
tag models the `tag=None` default, and the emptiness test models Python's
`if tag:` truthiness check, under which the empty string is discarded. The
`getD` is unreachable: `add_tag` always succeeds right after `add_version`. -/
def ProductTracker.insert (t : ProductTracker) (product version : String)
    (tag : Option String) : ProductTracker :=
  match tag with
  | none => ⟨aupdate (fun p => p.add_version version) (tracker_ensure t product) product⟩
  | some s =>
    if s = "" then ⟨aupdate (fun p => p.add_version version) (tracker_ensure t product) product⟩
    else ⟨aupdate (fun p => (p.add_tag version s).getD p)
            (aupdate (fun p => p.add_version version) (tracker_ensure t product) product)
            product⟩

/-- Version `v` of product `q` carries tag `x` in the tracker. -/
def tracker_vtag (t : ProductTracker) (q v x : String) : Prop :=
  ∃ prod ts, alookup t._products q = some prod ∧ alookup prod._versions v = some ts ∧ x ∈ ts

/-- Some version of product `q` carries tag `x` in the tracker. -/
def tracker_tag (t : ProductTracker) (q x : String) : Prop :=
  ∃ v, tracker_vtag t q v x

/-- Version `v` of product `q` is registered in the tracker. -/
def tracker_hasv (t : ProductTracker) (q v : String) : Prop :=
  ∃ prod, alookup t._products q = some prod ∧ (alookup prod._versions v).isSome

/-- Well-formedness of any `Product` value the Python code can build: at
least one registered version, and version keys are unique (they mirror the
keys of a dict). -/
def ProductWF (p : Product) : Prop :=
  p._versions ≠ [] ∧ (p._versions.map Prod.fst).Nodup

/-- Well-formedness of reachable trackers: any product that can be looked up
is well-formed. -/
def trackerWF (t : ProductTracker) : Prop :=
  ∀ q prod, alookup t._products q = some prod → ProductWF prod

theorem product_vtag_add_version (p : Product) (v w x : String) :
    (∃ ts, alookup (p.add_version v)._versions w = some ts ∧ x ∈ ts) ↔
      (∃ ts, alookup p._versions w = some ts ∧ x ∈ ts) := by
  unfold Product.add_version
  rcases h : alookup p._versions v with _ | ts0
  · simp only [h]
    by_cases hw : w = v
    · subst hw
      constructor
      · rintro ⟨ts, hts, hx⟩
        rw [alookup_append_none h] at hts
        simp [alookup] at hts
        subst hts
        simp at hx
      · rintro ⟨ts, hts, hx⟩
        rw [h] at hts
        exact Option.noConfusion hts
    · rw [alookup_append_single_other _ hw]
  · simp only [h]

theorem product_hasv_add_version (p : Product) (v w : String) :
    (alookup (p.add_version v)._versions w).isSome ↔
      (alookup p._versions w).isSome ∨ w = v := by
  unfold Product.add_version
  rcases h : alookup p._versions v with _ | ts0
  · simp only [h]
    by_cases hw : w = v
    · subst hw
      rw [alookup_append_none h]
      simp [alookup, h]
    · rw [alookup_append_single_other _ hw]
      simp [hw]
  · simp only [h]
    by_cases hw : w = v
    · subst hw; simp [h]
    · simp [hw]

theorem product_hasv_add_version_self (p : Product) (v : String) :
    (alookup (p.add_version v)._versions v).isSome := by
  rw [product_hasv_add_version]
  exact Or.inr rfl

theorem product_add_tag_isSome {p : Product} {v : String} (s : String)
    (h : (alookup p._versions v).isSome) : ∃ p', p.add_tag v s = some p' := by
  unfold Product.add_tag
  rcases h2 : alookup p._versions v with _ | ts
  · rw [h2] at h; exact absurd h (by simp)
  · exact ⟨_, rfl⟩

theorem product_vtag_add_tag {p p' : Product} {v s : String}
    (h : p.add_tag v s = some p') (w x : String) :
    (∃ ts, alookup p'._versions w = some ts ∧ x ∈ ts) ↔
      ((∃ ts, alookup p._versions w = some ts ∧ x ∈ ts) ∨ (w = v ∧ x = s)) := by
  unfold Product.add_tag at h
  rcases h2 : alookup p._versions v with _ | ts0
  · rw [h2] at h; exact Option.noConfusion h
  · rw [h2] at h
    injection h with h
    have hv : p'._versions = aupdate (fun ts => set_add ts s) p._versions v := by
      rw [← h]
    have key : alookup p'._versions v = some (set_add ts0 s) := by
      rw [hv, alookup_aupdate_self, h2]
      rfl
    by_cases hw : w = v
    · subst hw
      constructor
      · rintro ⟨ts, hts, hx⟩
        rw [key] at hts
        injection hts with hts
        rw [← hts, mem_set_add] at hx
        rcases hx with hx | hx
        · exact Or.inl ⟨ts0, h2, hx⟩
        · exact Or.inr ⟨rfl, hx⟩
      · rintro (⟨ts, hts, hx⟩ | ⟨_, hx⟩)
        · rw [h2] at hts
          injection hts with hts
          rw [← hts] at hx
          exact ⟨set_add ts0 s, key, (mem_set_add ts0 s x).mpr (Or.inl hx)⟩
        · exact ⟨set_add ts0 s, key, (mem_set_add ts0 s x).mpr (Or.inr hx)⟩
    · rw [hv, alookup_aupdate_other _ _ hw]
      constructor
      · exact fun hh => Or.inl hh
      · rintro (hh | ⟨hwv, _⟩)
        · exact hh
        · exact absurd hwv hw

theorem product_hasv_add_tag {p p' : Product} {v s : String}
    (h : p.add_tag v s = some p') (w : String) :
    (alookup p'._versions w).isSome ↔ (alookup p._versions w).isSome := by
  unfold Product.add_tag at h
  rcases h2 : alookup p._versions v with _ | ts0
  · rw [h2] at h; exact Option.noConfusion h
  · rw [h2] at h
    injection h with h
    have hv : p'._versions = aupdate (fun ts => set_add ts s) p._versions v := by
      rw [← h]
    by_cases hw : w = v
    · subst hw
      rw [hv, alookup_aupdate_self, h2]
      simp
    · rw [hv, alookup_aupdate_other _ _ hw]

theorem productWF_add_version {p : Product} (hp : ProductWF p) (v : String) :
    ProductWF (p.add_version v) := by
  unfold Product.add_version
  rcases h : alookup p._versions v with _ | ts0
  · constructor
    · simp
    · simp only [List.map_append]
      rw [List.nodup_append]
      refine ⟨hp.2, by simp, ?_⟩
      intro a ha hb
      simp at hb
      subst hb
      exact ((alookup_none_iff _ _).mp h) ha
  · exact hp

theorem productWF_add_version_fresh (product v : String) :
    ProductWF (Product.add_version ⟨product, []⟩ v) := by
  unfold Product.add_version
  simp [alookup]
  constructor
  · simp
  · simp

theorem productWF_add_tag {p p' : Product} {v s : String}
    (hp : ProductWF p) (h : p.add_tag v s = some p') : ProductWF p' := by
  unfold Product.add_tag at h
  rcases h2 : alookup p._versions v with _ | ts0
  · rw [h2] at h; exact Option.noConfusion h
  · rw [h2] at h
    injection h with h
    have hv : p'._versions = aupdate (fun ts => set_add ts s) p._versions v := by
      rw [← h]
    constructor
    · rw [hv]
      intro hnil
      have hkeys : p._versions.map Prod.fst = [] := by
        rw [← aupdate_keys (fun ts => set_add ts s) p._versions v, hnil]
        simp
      exact hp.1 (List.map_eq_nil_iff.mp hkeys)
    · rw [hv, aupdate_keys]
      exact hp.2

theorem tracker_ensure_self (t : ProductTracker) (p : String) :
    alookup (tracker_ensure t p) p = some ((alookup t._products p).getD ⟨p, []⟩) := by
  unfold tracker_ensure
  rcases h : alookup t._products p with _ | pr
  · rw [alookup_append_none h]
    simp [alookup]
  · simp [h]

theorem tracker_ensure_other (t : ProductTracker) {p q : String} (hq : q ≠ p) :
    alookup (tracker_ensure t p) q = alookup t._products q := by
  unfold tracker_ensure
  rcases h : alookup t._products p with _ | pr
  · exact alookup_append_single_other _ hq
  · rfl

theorem insert_plain_eq (t : ProductTracker) (p v : String) {tg : Option String}
    (htg : tg = none ∨ tg = some "") :
    t.insert p v tg = ⟨aupdate (fun pr => pr.add_version v) (tracker_ensure t p) p⟩ := by
  rcases htg with htg | htg
  · subst htg
    rfl
  · subst htg
    simp [ProductTracker.insert]

theorem insert_tag_eq (t : ProductTracker) (p v : String) {s : String} (hs : s ≠ "") :
    t.insert p v (some s) =
      ⟨aupdate (fun pr => (pr.add_tag v s).getD pr)
        (aupdate (fun pr => pr.add_version v) (tracker_ensure t p) p) p⟩ := by
  simp [ProductTracker.insert, hs]

theorem insert_alookup_other (t : ProductTracker) (p v : String) (tg : Option String)
    {q : String} (hq : q ≠ p) :
    alookup (t.insert p v tg)._products q = alookup t._products q := by
  cases tg with
  | none =>
    rw [insert_plain_eq t p v (Or.inl rfl)]
    show alookup (aupdate _ (tracker_ensure t p) p) q = _
    rw [alookup_aupdate_other _ _ hq, tracker_ensure_other t hq]
  | some s =>
    by_cases hs : s = ""
    · subst hs
      rw [insert_plain_eq t p v (Or.inr rfl)]
      show alookup (aupdate _ (tracker_ensure t p) p) q = _
      rw [alookup_aupdate_other _ _ hq, tracker_ensure_other t hq]
    · rw [insert_tag_eq t p v hs]
      show alookup (aupdate _ (aupdate _ (tracker_ensure t p) p) p) q = _
      rw [alookup_aupdate_other _ _ hq, alookup_aupdate_other _ _ hq,
        tracker_ensure_other t hq]

theorem insert_alookup_self_plain (t : ProductTracker) (p v : String) {tg : Option String}
    (htg : tg = none ∨ tg = some "") :
    alookup (t.insert p v tg)._products p =
      some (((alookup t._products p).getD ⟨p, []⟩).add_version v) := by
  rw [insert_plain_eq t p v htg]
  show alookup (aupdate _ (tracker_ensure t p) p) p = _
  rw [alookup_aupdate_self, tracker_ensure_self]
  rfl

theorem insert_alookup_self_tag (t : ProductTracker) (p v : String) {s : String}
    (hs : s ≠ "") :
    ∃ prod2, (((alookup t._products p).getD ⟨p, []⟩).add_version v).add_tag v s = some prod2 ∧
      alookup (t.insert p v (some s))._products p = some prod2 := by
  obtain ⟨prod2, hadd⟩ :=
    product_add_tag_isSome s
      (product_hasv_add_version_self ((alookup t._products p).getD ⟨p, []⟩) v)
  refine ⟨prod2, hadd, ?_⟩
  rw [insert_tag_eq t p v hs]
  show alookup (aupdate _ (aupdate _ (tracker_ensure t p) p) p) p = _
  rw [alookup_aupdate_self, alookup_aupdate_self, tracker_ensure_self]
  simp [hadd]

theorem vtag_lookup_some {t : ProductTracker} {q : String} {prod : Product}
    (h : alookup t._products q = some prod) (w x : String) :
    tracker_vtag t q w x ↔ (∃ ts, alookup prod._versions w = some ts ∧ x ∈ ts) := by
  unfold tracker_vtag
  constructor
  · rintro ⟨prod', ts, h1, h2, h3⟩
    rw [h] at h1
    injection h1 with h1
    subst h1
    exact ⟨ts, h2, h3⟩
  · rintro ⟨ts, h2, h3⟩
    exact ⟨prod, ts, h, h2, h3⟩

theorem vtag_lookup_none {t : ProductTracker} {q : String}
    (h : alookup t._products q = none) (w x : String) : ¬ tracker_vtag t q w x := by
  rintro ⟨prod', ts, h1, _, _⟩
  rw [h] at h1
  exact Option.noConfusion h1

theorem hasv_lookup_some {t : ProductTracker} {q : String} {prod : Product}
    (h : alookup t._products q = some prod) (w : String) :
    tracker_hasv t q w ↔ (alookup prod._versions w).isSome := by
  unfold tracker_hasv
  constructor
  · rintro ⟨prod', h1, h2⟩
    rw [h] at h1
    injection h1 with h1
    subst h1
    exact h2
  · intro h2
    exact ⟨prod, h, h2⟩

theorem hasv_lookup_none {t : ProductTracker} {q : String}
    (h : alookup t._products q = none) (w : String) : ¬ tracker_hasv t q w := by
  rintro ⟨prod', h1, _⟩
  rw [h] at h1
  exact Option.noConfusion h1

theorem base_vtag_getD (t : ProductTracker) (p w x : String) :
    tracker_vtag t p w x ↔
      (∃ ts, alookup ((alookup t._products p).getD ⟨p, []⟩)._versions w = some ts ∧ x ∈ ts) := by
  rcases h : alookup t._products p with _ | pr
  · simp only [h, Option.getD_none]
    constructor
    · intro hv
      exact absurd hv (vtag_lookup_none h w x)
    · rintro ⟨ts, hts, _⟩
      simp [alookup] at hts
  · simp only [h, Option.getD_some]
    exact vtag_lookup_some h w x

theorem base_hasv_getD (t : ProductTracker) (p w : String) :
    tracker_hasv t p w ↔
      (alookup ((alookup t._products p).getD ⟨p, []⟩)._versions w).isSome := by
  rcases h : alookup t._products p with _ | pr
  · simp only [h, Option.getD_none]
    constructor
    · intro hv
      exact absurd hv (hasv_lookup_none h w)
    · intro hts
      simp [alookup] at hts
  · simp only [h, Option.getD_some]
    exact hasv_lookup_some h w

theorem insert_vtag (t : ProductTracker) (p v : String) (tg : Option String) (q w x : String) :
    tracker_vtag (t.insert p v tg) q w x ↔
      tracker_vtag t q w x ∨ (q = p ∧ w = v ∧ tg = some x ∧ x ≠ "") := by
  by_cases hq : q = p
  · subst hq
    cases tg with
    | none =>
      rw [vtag_lookup_some (insert_alookup_self_plain t q v (Or.inl rfl)) w x,
        product_vtag_add_version, ← base_vtag_getD]
      simp
    | some s =>
      by_cases hs : s = ""
      · subst hs
        rw [vtag_lookup_some (insert_alookup_self_plain t q v (Or.inr rfl)) w x,
          product_vtag_add_version, ← base_vtag_getD]
        constructor
        · exact Or.inl
        · rintro (hh | ⟨_, _, hx, hne⟩)
          · exact hh
          · injection hx with hx
            exact absurd hx.symm hne
      · obtain ⟨prod2, hadd, hlook⟩ := insert_alookup_self_tag t q v hs
        rw [vtag_lookup_some hlook w x, product_vtag_add_tag hadd,
          product_vtag_add_version, ← base_vtag_getD]
        constructor
        · rintro (hh | ⟨hwv, hxs⟩)
          · exact Or.inl hh
          · exact Or.inr ⟨rfl, hwv, by rw [hxs], by rw [hxs]; exact hs⟩
        · rintro (hh | ⟨_, hwv, hx, _⟩)
          · exact Or.inl hh
          · injection hx with hx
            exact Or.inr ⟨hwv, hx.symm⟩
  · unfold tracker_vtag
    rw [insert_alookup_other t p v tg hq]
    constructor
    · exact fun hh => Or.inl hh
    · rintro (hh | ⟨hqp, _⟩)
      · exact hh
      · exact absurd hqp hq

theorem insert_hasv (t : ProductTracker) (p v : String) (tg : Option String) (q w : String) :
    tracker_hasv (t.insert p v tg) q w ↔ tracker_hasv t q w ∨ (q = p ∧ w = v) := by
  by_cases hq : q = p
  · subst hq
    cases tg with
    | none =>
      rw [hasv_lookup_some (insert_alookup_self_plain t q v (Or.inl rfl)) w,
        product_hasv_add_version, ← base_hasv_getD]
      simp
    | some s =>
      by_cases hs : s = ""
      · subst hs
        rw [hasv_lookup_some (insert_alookup_self_plain t q v (Or.inr rfl)) w,
          product_hasv_add_version, ← base_hasv_getD]
        simp
      · obtain ⟨prod2, hadd, hlook⟩ := insert_alookup_self_tag t q v hs
        rw [hasv_lookup_some hlook w, product_hasv_add_tag hadd,
          product_hasv_add_version, ← base_hasv_getD]
        simp
  · unfold tracker_hasv
    rw [insert_alookup_other t p v tg hq]
    constructor
    · exact fun hh => Or.inl hh
    · rintro (hh | ⟨hqp, _⟩)
      · exact hh
      · exact absurd hqp hq

theorem insert_wf {t : ProductTracker} (hw : trackerWF t) (p v : String) (tg : Option String) :
    trackerWF (t.insert p v tg) := by
  intro q prod hq
  have hbase : ProductWF (((alookup t._products p).getD ⟨p, []⟩).add_version v) := by
    rcases h : alookup t._products p with _ | pr
    · simp only [h, Option.getD_none]
      exact productWF_add_version_fresh p v
    · simp only [h, Option.getD_some]
      exact productWF_add_version (hw p pr h) v
  by_cases hqp : q = p
  · subst hqp
    cases tg with
    | none =>
      rw [insert_alookup_self_plain t q v (Or.inl rfl)] at hq
      injection hq with hq
      rw [← hq]
      exact hbase
    | some s =>
      by_cases hs : s = ""
      · subst hs
        rw [insert_alookup_self_plain t q v (Or.inr rfl)] at hq
        injection hq with hq
        rw [← hq]
        exact hbase
      · obtain ⟨prod2, hadd, hlook⟩ := insert_alookup_self_tag t q v hs
        rw [hlook] at hq
        injection hq with hq
        rw [← hq]
        exact productWF_add_tag hbase hadd
  · rw [insert_alookup_other t p v tg hqp] at hq
    exact hw q prod hq

theorem tags_for_product_isSome {t : ProductTracker} (hw : trackerWF t) (q : String) :
    ∃ l, t.tags_for_product q = some l := by
  rcases h : alookup t._products q with _ | prod
  · exact ⟨[], by unfold ProductTracker.tags_for_product; rw [h]⟩
  · have hpw := hw q prod h
    refine ⟨set_union_all (prod._versions.map Prod.snd), ?_⟩
    unfold ProductTracker.tags_for_product
    rw [h]
    show prod.tags none = _
    simp only [Product.tags]
    rw [if_neg hpw.1]

theorem mem_tags_for_product {t : ProductTracker} (hw : trackerWF t) {q : String}
    {l : List String} (h : t.tags_for_product q = some l) (x : String) :
    x ∈ l ↔ tracker_tag t q x := by
  unfold ProductTracker.tags_for_product at h
  rcases halk : alookup t._products q with _ | prod
  · rw [halk] at h
    injection h with h
    subst h
    simp only [List.not_mem_nil, false_iff]
    rintro ⟨w, hvt⟩
    exact vtag_lookup_none halk w x hvt
  · rw [halk] at h
    have hpw := hw q prod halk
    have h2 : prod.tags none = some l := h
    simp only [Product.tags] at h2
    rw [if_neg hpw.1] at h2
    have h := h2
    injection h with h
    subst h
    rw [mem_set_union_all]
    constructor
    · rintro ⟨ts, hts, hx⟩
      obtain ⟨⟨w, ts'⟩, hmem, hts'⟩ := List.mem_map.mp hts
      subst hts'
      exact ⟨w, (vtag_lookup_some halk w x).mpr
        ⟨ts', alookup_of_mem_nodup hpw.2 hmem, hx⟩⟩
    · rintro ⟨w, hvt⟩
      obtain ⟨ts, hts, hx⟩ := (vtag_lookup_some halk w x).mp hvt
      exact ⟨ts, List.mem_map.mpr ⟨(w, ts), alookup_mem hts, rfl⟩, hx⟩

theorem has_version_iff (t : ProductTracker) (q w : String) :
    t.has_version q w = true ↔ tracker_hasv t q w := by
  unfold ProductTracker.has_version
  rcases halk : alookup t._products q with _ | prod
  · simp only [Bool.false_eq_true, false_iff]
    exact hasv_lookup_none halk w
  · rw [hasv_lookup_some halk w]
    show (decide (w ∈ prod.versions none)) = true ↔ _
    rw [decide_eq_true_iff]
    show w ∈ prod._versions.map Prod.fst ↔ _
    exact (alookup_isSome_iff prod._versions w).symm

theorem versions_filter_nil {p : Product} {tg : String}
    (h : ∀ vs ts, (vs, ts) ∈ p._versions → tg ∉ ts) : p.versions (some tg) = [] := by
  show (p._versions.filter (fun kv => tg ∈ kv.2)).map Prod.fst = []
  rw [List.map_eq_nil_iff]
  rw [List.filter_eq_nil_iff]
  rintro ⟨vs, ts⟩ hmem
  simpa using h vs ts hmem

theorem trackerWF_empty : trackerWF ⟨[]⟩ := by
  intro q prod h
  simp [alookup] at h

theorem tracker_vtag_empty (q w x : String) : ¬ tracker_vtag ⟨[]⟩ q w x :=
  vtag_lookup_none (show alookup ([] : List (String × Product)) q = none from rfl) w x

theorem tracker_hasv_empty (q w : String) : ¬ tracker_hasv ⟨[]⟩ q w :=
  hasv_lookup_none (show alookup ([] : List (String × Product)) q = none from rfl) w

/-- Populate a fresh tracker by a sequence of `insert(product, version, tag)`
calls, left to right. -/
def run_inserts (seq : List (String × String × Option String)) : ProductTracker :=
  seq.foldl (fun t e => t.insert e.1 e.2.1 e.2.2) ⟨[]⟩

theorem foldl_insert_vtag (seq : List (String × String × Option String))
    (t : ProductTracker) (q w x : String) :
    tracker_vtag (seq.foldl (fun t e => t.insert e.1 e.2.1 e.2.2) t) q w x ↔
      tracker_vtag t q w x ∨ ((q, w, some x) ∈ seq ∧ x ≠ "") := by
  induction seq generalizing t with
  | nil => simp
  | cons e rest ih =>
    obtain ⟨p, v, tg⟩ := e
    simp only [List.foldl_cons]
    rw [ih, insert_vtag]
    simp only [List.mem_cons, Prod.mk.injEq]
    constructor
    · rintro ((hA | ⟨hq, hw, htg, hx⟩) | ⟨hm, hx⟩)
      · exact Or.inl hA
      · exact Or.inr ⟨Or.inl ⟨hq, hw, htg.symm⟩, hx⟩
      · exact Or.inr ⟨Or.inr hm, hx⟩
    · rintro (hA | ⟨(⟨hq, hw, htg⟩ | hm), hx⟩)
      · exact Or.inl (Or.inl hA)
      · exact Or.inl (Or.inr ⟨hq, hw, htg.symm, hx⟩)
      · exact Or.inr ⟨hm, hx⟩

theorem foldl_insert_hasv (seq : List (String × String × Option String))
    (t : ProductTracker) (q w : String) :
    tracker_hasv (seq.foldl (fun t e => t.insert e.1 e.2.1 e.2.2) t) q w ↔
      tracker_hasv t q w ∨ ∃ tg, (q, w, tg) ∈ seq := by
  induction seq generalizing t with
  | nil => simp
  | cons e rest ih =>
    obtain ⟨p, v, tg⟩ := e
    simp only [List.foldl_cons]
    rw [ih, insert_hasv]
    simp only [List.mem_cons, Prod.mk.injEq]
    constructor
    · rintro ((hA | ⟨hq, hw⟩) | ⟨tg', hm⟩)
      · exact Or.inl hA
      · exact Or.inr ⟨tg, Or.inl ⟨hq, hw, rfl⟩⟩
      · exact Or.inr ⟨tg', Or.inr hm⟩
    · rintro (hA | ⟨tg', (⟨hq, hw, _⟩ | hm)⟩)
      · exact Or.inl (Or.inl hA)
      · exact Or.inl (Or.inr ⟨hq, hw⟩)
      · exact Or.inr ⟨tg', hm⟩

theorem foldl_insert_wf (seq : List (String × String × Option String))
    {t : ProductTracker} (hw : trackerWF t) :
    trackerWF (seq.foldl (fun t e => t.insert e.1 e.2.1 e.2.2) t) := by
  induction seq generalizing t with
  | nil => exact hw
  | cons e rest ih =>
    simp only [List.foldl_cons]
    exact ih (insert_wf hw e.1 e.2.1 e.2.2)

theorem run_inserts_wf (seq : List (String × String × Option String)) :
    trackerWF (run_inserts seq) :=
  foldl_insert_wf seq trackerWF_empty

theorem run_inserts_vtag (seq : List (String × String × Option String)) (q w x : String) :
    tracker_vtag (run_inserts seq) q w x ↔ ((q, w, some x) ∈ seq ∧ x ≠ "") := by
  rw [run_inserts, foldl_insert_vtag]
  constructor
  · rintro (h | h)
    · exact absurd h (tracker_vtag_empty q w x)
    · exact h
  · exact Or.inr

theorem run_inserts_hasv (seq : List (String × String × Option String)) (q w : String) :
    tracker_hasv (run_inserts seq) q w ↔ ∃ tg, (q, w, tg) ∈ seq := by
  rw [run_inserts, foldl_insert_hasv]
  constructor
  · rintro (h | h)
    · exact absurd h (tracker_hasv_empty q w)
    · exact h
  · exact Or.inr

/-- C4 (counterexample): the claim fails for the empty-string tag. After the
single call `insert("a", "1", "")`, the union of all tag values inserted for
"a" is the one-element set containing "", yet `tags_for_product("a")` is the
empty set, because `insert`'s `if tag:` truthiness test discards the empty
string. So `tags_for_product` does not equal the union of all inserted tag
values. -/
theorem c4_insert_union_cex :
    (run_inserts [("a", "1", some "")]).tags_for_product "a" = some [] ∧
    ("" ∈ ([] : List String) ↔ False) ∧
    ("a", "1", some "") ∈ ([("a", "1", some "")] : List (String × String × Option String)) := by
  refine ⟨rfl, by simp, by simp⟩

/-- C4 (amended): after any sequence of `insert(p, v, t)` calls on a fresh
tracker, `tags_for_product(p)` equals the union of all non-empty tag values
inserted for `p` (the empty string is discarded by `insert`'s truthiness
test), `has_version(p, v)` holds exactly for the versions inserted for `p`,
and both results depend only on the set of calls, not on their order. -/
theorem c4_insert_order_independence :
    ∀ (seq : List (String × String × Option String)) (p : String),
      (∃ l, (run_inserts seq).tags_for_product p = some l ∧
        ∀ x, (x ∈ l ↔ (x ≠ "" ∧ ∃ v, (p, v, some x) ∈ seq))) ∧
      (∀ v, ((run_inserts seq).has_version p v = true ↔ ∃ tg, (p, v, tg) ∈ seq)) ∧
      (∀ seq2 : List (String × String × Option String),
        (∀ e, e ∈ seq ↔ e ∈ seq2) →
        (∀ x l1 l2, (run_inserts seq).tags_for_product p = some l1 →
          (run_inserts seq2).tags_for_product p = some l2 → (x ∈ l1 ↔ x ∈ l2)) ∧
        (∀ v, (run_inserts seq).has_version p v = (run_inserts seq2).has_version p v)) := by
  intro seq p
  have hchar : ∀ (s : List (String × String × Option String)) (l : List String) (x : String),
      (run_inserts s).tags_for_product p = some l →
      (x ∈ l ↔ (x ≠ "" ∧ ∃ v, (p, v, some x) ∈ s)) := by
    intro s l x hl
    rw [mem_tags_for_product (run_inserts_wf s) hl x]
    unfold tracker_tag
    constructor
    · rintro ⟨w, hv⟩
      rw [run_inserts_vtag] at hv
      exact ⟨hv.2, w, hv.1⟩
    · rintro ⟨hx, w, hm⟩
      exact ⟨w, (run_inserts_vtag s p w x).mpr ⟨hm, hx⟩⟩
  have hhv : ∀ (s : List (String × String × Option String)) (v : String),
      ((run_inserts s).has_version p v = true ↔ ∃ tg, (p, v, tg) ∈ s) := by
    intro s v
    rw [has_version_iff, run_inserts_hasv]
  refine ⟨?_, hhv seq, ?_⟩
  · obtain ⟨l, hl⟩ := tags_for_product_isSome (run_inserts_wf seq) p
    exact ⟨l, hl, fun x => hchar seq l x hl⟩
  · intro seq2 hsame
    constructor
    · intro x l1 l2 h1 h2
      rw [hchar seq l1 x h1, hchar seq2 l2 x h2]
      constructor
      · rintro ⟨hx, v, hm⟩
        exact ⟨hx, v, (hsame _).mp hm⟩
      · rintro ⟨hx, v, hm⟩
        exact ⟨hx, v, (hsame _).mpr hm⟩
    · intro v
      have h1 := hhv seq v
      have h2 := hhv seq2 v
      rcases hb1 : (run_inserts seq).has_version p v with _ | _
      · rcases hb2 : (run_inserts seq2).has_version p v with _ | _
        · rfl
        · rw [hb1] at h1; rw [hb2] at h2
          obtain ⟨tg, hm⟩ := h2.mp rfl
          exact absurd (h1.mpr ⟨tg, (hsame _).mpr hm⟩) (by simp)
      · rcases hb2 : (run_inserts seq2).has_version p v with _ | _
        · rw [hb1] at h1; rw [hb2] at h2
          obtain ⟨tg, hm⟩ := h1.mp rfl
          exact absurd (h2.mpr ⟨tg, (hsame _).mp hm⟩) (by simp)
        · rfl

/-- Witness for the amended C4 theorem at a concrete insertion sequence. -/
theorem c4_insert_order_independence_witness :
    (run_inserts [("a", "1", some "t")]).has_version "a" "1" = true :=
  ((c4_insert_order_independence [("a", "1", some "t")] "a").2.1 "1").mpr
    ⟨some "t", by simp⟩

/-- C5 (counterexample): the tracker built by `insert("a", "1")` is reachable
via `insert`, yet querying the tags of the unknown version "2" of its product
"a" raises `KeyError` (modelled by `none`) instead of returning an empty
collection, so the claim's "unknown version" part fails. -/
theorem c5_unknown_version_cex :
    alookup (run_inserts [("a", "1", none)])._products "a" =
      some (Product.mk "a" [("1", [])]) ∧
    (Product.mk "a" [("1", [])]).tags (some "2") = none := by
  exact ⟨rfl, rfl⟩

/-- C5 (amended): lookups for an unknown product are total — `tags_for_product`
returns the empty set for a product name absent from the tracker, and a
`versions` query filtered by a tag that no version carries returns the empty
list — but `Product.tags` queried with an unregistered version raises
`KeyError` (see C6), contrary to the claim's "unknown version" part. -/
theorem c5_unknown_product_total :
    ∀ (t : ProductTracker) (name : String) (p : Product) (tg : String),
      (alookup t._products name = none → t.tags_for_product name = some []) ∧
      ((∀ vs ts, (vs, ts) ∈ p._versions → tg ∉ ts) → p.versions (some tg) = []) := by
  intro t name p tg
  constructor
  · intro h
    unfold ProductTracker.tags_for_product
    rw [h]
  · intro h
    exact versions_filter_nil h

/-- Witness for the amended C5 theorem at concrete inputs. -/
theorem c5_unknown_product_total_witness :
    (ProductTracker.mk []).tags_for_product "z" = some [] ∧
    (Product.mk "a" [("1", ["t"])]).versions (some "u") = [] := by
  constructor
  · exact (c5_unknown_product_total ⟨[]⟩ "z" (Product.mk "a" []) "u").1 rfl
  · refine (c5_unknown_product_total ⟨[]⟩ "z" (Product.mk "a" [("1", ["t"])]) "u").2 ?_
    intro vs ts h
    simp at h
    rw [h.2]
    decide

/-- C6: `Product.tags(version)` returns exactly the tag set of a registered
version, raises `KeyError` (modelled by `none`) for an unregistered version,
and `Product.tags()` with no argument returns the union of the tag sets of
all registered versions (of which there is at least one for any product the
tracker builds). -/
theorem c6_product_tags_contract :
    ∀ (p : Product) (v : String),
      (v ∈ p.versions none → ∃ ts, p.tags (some v) = some ts ∧
        ∀ x, (x ∈ ts ↔ ∃ ts2, alookup p._versions v = some ts2 ∧ x ∈ ts2)) ∧
      (v ∉ p.versions none → p.tags (some v) = none) ∧
      (p._versions ≠ [] → ∃ l, p.tags none = some l ∧
        ∀ x, (x ∈ l ↔ ∃ vs ts, (vs, ts) ∈ p._versions ∧ x ∈ ts)) := by
  intro p v
  refine ⟨?_, ?_, ?_⟩
  · intro hv
    have hs : (alookup p._versions v).isSome :=
      (alookup_isSome_iff p._versions v).mpr hv
    obtain ⟨ts, h⟩ := Option.isSome_iff_exists.mp hs
    refine ⟨ts, ?_, ?_⟩
    · show alookup p._versions v = some ts
      exact h
    · intro x
      constructor
      · intro hx
        exact ⟨ts, h, hx⟩
      · rintro ⟨ts2, hts2, hx⟩
        rw [h] at hts2
        injection hts2 with hts2
        rw [← hts2] at hx
        exact hx
  · intro hv
    show alookup p._versions v = none
    exact (alookup_none_iff p._versions v).mpr hv
  · intro hne
    refine ⟨set_union_all (p._versions.map Prod.snd), ?_, ?_⟩
    · show Product.tags p none = _
      simp only [Product.tags]
      rw [if_neg hne]
    · intro x
      rw [mem_set_union_all]
      constructor
      · rintro ⟨ts, hts, hx⟩
        obtain ⟨⟨vs, ts2⟩, hmem, hts2⟩ := List.mem_map.mp hts
        subst hts2
        exact ⟨vs, ts2, hmem, hx⟩
      · rintro ⟨vs, ts, hmem, hx⟩
        exact ⟨ts, List.mem_map.mpr ⟨(vs, ts), hmem, rfl⟩, hx⟩

/-- Witness for C6 at a concrete product: version "2" is unregistered, so the
query fails with a key error. -/
theorem c6_product_tags_contract_witness :
    (Product.mk "a" [("1", ["t"])]).tags (some "2") = none :=
  (c6_product_tags_contract (Product.mk "a" [("1", ["t"])]) "2").2.1 (by decide)

/-- The `miniconda2` lookup of `StackManager._refresh_products`: the
`IndexError` raised by `current` is caught and turned into `None`. -/
def miniconda_current (t : ProductTracker) : Option String :=
  match t.current "miniconda2" with
  | none => none
  | some r => r

/-- C10: `current(p)` returns `None` for a product name that is not tracked
at all, but raises `IndexError` (modelled by the outer `none`) for a tracked
product none of whose versions is tagged "current"; the miniconda2 caller
catches that exception and treats it as `None`. -/
theorem c10_current_semantics :
    ∀ (t : ProductTracker) (p : String) (prod : Product),
      (alookup t._products p = none → t.current p = some none) ∧
      (alookup t._products p = some prod →
        (∀ vs ts, (vs, ts) ∈ prod._versions → "current" ∉ ts) →
        t.current p = none) ∧
      (t.current "miniconda2" = none → miniconda_current t = none) := by
  intro t p prod
  refine ⟨?_, ?_, ?_⟩
  · intro h
    unfold ProductTracker.current
    rw [h]
  · intro h hns
    unfold ProductTracker.current
    rw [h]
    show (match prod.versions (some "current") with
          | [] => none
          | v :: _ => some (some v)) = (none : Option (Option String))
    rw [versions_filter_nil hns]
  · intro h
    unfold miniconda_current
    rw [h]

/-- Witness for C10 at concrete trackers: a tracked product with no
"current"-tagged version raises, an untracked product yields `None`. -/
theorem c10_current_semantics_witness :
    (ProductTracker.mk [("a", Product.mk "a" [("1", [])])]).current "a" = none ∧
    (ProductTracker.mk []).current "b" = some none := by
  constructor
  · refine (c10_current_semantics (ProductTracker.mk [("a", Product.mk "a" [("1", [])])])
      "a" (Product.mk "a" [("1", [])])).2.1 rfl ?_
    intro vs ts h
    simp at h
    rw [h.2]
    decide
  · exact (c10_current_semantics (ProductTracker.mk []) "b" (Product.mk "x" [])).1 rfl

/-- Does `needle` occur at the very start of `hay`? (character lists) -/
def starts_with_chars : List Char → List Char → Bool
  | [], _ => true
  | _ :: _, [] => false
  | a :: as, b :: bs => a = b && starts_with_chars as bs

/-- Python's substring test `needle in hay` on character lists: true iff
`needle` occurs contiguously somewhere in `hay` (the empty needle always
does). -/
def contains_chars (needle : List Char) : List Char → Bool
  | [] => starts_with_chars needle []
  | c :: rest => starts_with_chars needle (c :: rest) || contains_chars needle rest

/-- Python's substring test `needle in hay` for strings. -/
def py_in (needle hay : String) : Bool :=
  contains_chars needle.toList hay.toList

/-- Suffix test, modelling Python's `s[-5:] == ".list"` comparison. -/
def is_suffix_chars (needle hay : List Char) : Bool :=
  starts_with_chars needle.reverse hay.reverse

/-- Python `s[:-5]`. -/
def strip_last5 (s : String) : String :=
  String.mk (s.toList.take (s.toList.length - 5))

/-- Python `s[1:]`. -/
def drop1 (s : String) : String :=
  String.mk (s.toList.drop 1)

/-- Python `str.split(sep)` for a one-character separator: split at every
occurrence, keeping empty fields. -/
def split_on_char (sep : Char) : List Char → List (List Char)
  | [] => [[]]
  | c :: rest =>
    let r := split_on_char sep rest
    if c = sep then [] :: r
    else
      match r with
      | [] => [[c]]
      | w :: ws => (c :: w) :: ws

/-- Python `str.split(sep)` for strings, one-character separator. -/
def py_split (sep : Char) (s : String) : List String :=
  (split_on_char sep s.toList).map (fun cs => String.mk cs)

/-- Python `str.split()` with no argument: split on whitespace runs,
discarding empty fields; `cur` holds the current word reversed. -/
def split_ws_go (cur : List Char) : List Char → List (List Char)
  | [] => if cur = [] then [] else [cur.reverse]
  | c :: rest =>
    if c.isWhitespace then
      if cur = [] then split_ws_go [] rest
      else cur.reverse :: split_ws_go [] rest
    else split_ws_go (c :: cur) rest

/-- Python `str.split()` with no argument, for strings. -/
def split_ws (s : String) : List String :=
  (split_ws_go [] s.toList).map (fun cs => String.mk cs)

/-- Python `str.strip()` on character lists. -/
def strip_chars (cs : List Char) : List Char :=
  ((cs.dropWhile Char.isWhitespace).reverse.dropWhile Char.isWhitespace).reverse

/-- The characters of `cs` before the first occurrence of `needle`, i.e.
Python's `cs.split(needle)[0]`. -/
def take_before (needle : List Char) : List Char → List Char
  | [] => []
  | c :: rest =>
    if starts_with_chars needle (c :: rest) then []
    else c :: take_before needle rest

/-- Python dict assignment `d[k] = v`. -/
def dict_set {α : Type} (l : List (String × α)) (k : String) (v : α) : List (String × α) :=
  match alookup l k with
  | some _ => aupdate (fun _ => v) l k
  | none => l ++ [(k, v)]

/-- One line of `eups list --raw` output as consumed by
`StackManager._refresh_products`: empty lines are skipped, other lines are
split on `|` into (product, version, colon-delimited tags); any other field
count is a `ValueError` (`none`). Note the tag filter is Python's
`tag in ("setup")`, a *substring* test against the string "setup", since
`("setup")` is not a tuple. -/
def refresh_line (t : ProductTracker) (line : String) : Option ProductTracker :=
  if line = "" then some t
  else
    match py_split '|' line with
    | [product, version, tags] =>
      let t1 := if tags = "" then t.insert product version none else t
      some ((py_split ':' tags).foldl
        (fun acc tag =>
          if py_in tag "setup" then acc else acc.insert product version (some tag)) t1)
    | _ => none

/-- `StackManager._refresh_products`: rebuild a tracker from the lines of
`eups list --raw` output. -/
def refresh_tracker (lines : List String) : Option ProductTracker :=
  lines.foldlM refresh_line ⟨[]⟩

/-- The manifest's self-describing header: `"EUPS distribution %s version
list" % tag`. -/
def header_line (tag : String) : String :=
  "EUPS distribution " ++ tag ++ " version list"

/-- One manifest line as consumed by `RepositoryManager.__init__` in
shared_stack.py: `some none` means the line was skipped (header or comment),
`some (some row)` is a parsed data row, and `none` models an uncaught
exception — the `IndexError` of `line.strip()[0]` on a blank line or the
`ValueError` of unpacking `line.split()` into three names. -/
def parse_manifest_line (tag : String) (line : String) :
    Option (Option (String × String × String)) :=
  if py_in (header_line tag) line then some none
  else
    match strip_chars line.toList with
    | [] => none
    | c :: _ =>
      if c = '#' then some none
      else
        match split_ws line with
        | [product, flavor, version] => some (some (product, flavor, version))
        | _ => none

/-- The manifest parsing loop of `RepositoryManager.__init__`
(shared_stack.py): data rows in order, failing the whole manifest on the
first bad line. -/
def parse_manifest (tag : String) : List String → Option (List (String × String × String))
  | [] => some []
  | line :: rest =>
    match parse_manifest_line tag line with
    | none => none
    | some none => parse_manifest tag rest
    | some (some row) => (parse_manifest tag rest).map (fun l => row :: l)

/-- The remote repository as seen by shared_stack.py's RepositoryManager:
the anchor texts of the tag listing page, and per tag-name stem the fetch
outcome — `none` (or a missing key) when `urlopen` or the last-modified
parse raises, otherwise the last-modified date and the manifest's lines. -/
structure RepoServer where
  listing : List String
  manifests : List (String × Option (Nat × List String))

/-- The loop of `RepositoryManager.__init__` in shared_stack.py. There is no
exception handler anywhere in it: a fetch failure or a manifest parse
failure propagates and aborts the whole constructor (`none`). -/
def repo_init_go (server : RepoServer) (pat : String → Bool) :
    List String → ProductTracker → List (String × Nat) →
      Option (ProductTracker × List (String × Nat))
  | [], t, dates => some (t, dates)
  | el :: rest, t, dates =>
    if is_suffix_chars ".list".toList el.toList && pat el then
      let tagname := strip_last5 el
      match alookup server.manifests tagname with
      | none => none
      | some none => none
      | some (some (date, body)) =>
        let dates2 := dict_set dates tagname date
        match parse_manifest tagname body with
        | none => none
        | some rows =>
          repo_init_go server pat rest
            (rows.foldl (fun acc r => acc.insert r.1 r.2.2 (some tagname)) t) dates2
    else repo_init_go server pat rest t dates

/-- `RepositoryManager.__init__` (shared_stack.py): build the tracker and the
tag→date map, or fail as a whole. -/
def RepositoryManager_init (server : RepoServer) (pat : String → Bool) :
    Option (ProductTracker × List (String × Nat)) :=
  repo_init_go server pat server.listing ⟨[]⟩ []

/-- C7 (code bug): the list line `p|v|set` carries the tag "set", which is
not "setup", yet `_refresh_products` records nothing at all for it — the
filter `tag in ("setup")` is a substring test against the string "setup"
(the parenthesised form is not a tuple), so "set" is treated like "setup"
and the `continue` even skips the version registration. By contrast a tag
that is not a substring of "setup" is inserted normally. -/
theorem c7_setup_filter_substring :
    refresh_tracker ["p|v|set"] = some ⟨[]⟩ ∧
    py_in "set" "setup" = true ∧
    ("set" = "setup" ↔ False) ∧
    refresh_tracker ["p|v|w_2016_10"] =
      some ⟨[("p", ⟨"p", [("v", ["w_2016_10"])]⟩)]⟩ := by
  exact ⟨rfl, rfl, by decide, rfl⟩

/-- tags.py's remote repository: per tag-name stem, the fetch outcome of its
manifest — `none` or a missing key when `urlopen` raises, otherwise the
manifest's lines. -/
structure TagsServer where
  listing_lines : List String
  manifests : List (String × Option (List String))

/-- One manifest line as consumed by tags.py's RepositoryManager: like
shared_stack.py's but with the looser header test
`"EUPS distribution " in line`. -/
def tags_parse_line (line : String) : Option (Option (String × String × String)) :=
  if py_in "EUPS distribution " line then some none
  else
    match strip_chars line.toList with
    | [] => none
    | c :: _ =>
      if c = '#' then some none
      else
        match split_ws line with
        | [product, flavor, version] => some (some (product, flavor, version))
        | _ => none

/-- The manifest parsing loop of tags.py's RepositoryManager. -/
def tags_parse_manifest : List String → Option (List (String × String × String))
  | [] => some []
  | line :: rest =>
    match tags_parse_line line with
    | none => none
    | some none => tags_parse_manifest rest
    | some (some row) => (tags_parse_manifest rest).map (fun l => row :: l)

/-- What one listing line contributes in tags.py's loader: `none` models an
uncaught exception (the `IndexError` of `ws[6]` when the line has exactly
five quotes, or a manifest parse error), `some none` a skipped line
(including a failed fetch, whose `urlopen` alone sits in `try ... except:
continue`), and `some (some rows)` the parsed data rows of a fetched
manifest. -/
def tags_line_action (manifests : List (String × Option (List String)))
    (pat : String → Bool) (tagline : String) :
    Option (Option (List (String × String × String))) :=
  let ws := py_split '"' tagline
  if 5 < ws.length then
    match ws[6]? with
    | none => none
    | some w6 =>
      let tag := drop1 w6
      if py_in ".list" tag = false then some none
      else if pat tag = false then some none
      else
        match alookup manifests (String.mk (take_before ".list".toList tag.toList)) with
        | none => some none
        | some none => some none
        | some (some body) =>
          match tags_parse_manifest body with
          | none => none
          | some rows => some (some rows)
  else some none

/-- The loop of `RepositoryManager.__init__` in tags.py. Note tags.py
records no tag dates (the strptime line is commented out) and inserts every
row without a tag. -/
def tags_init_go (manifests : List (String × Option (List String)))
    (pat : String → Bool) : List String → ProductTracker → Option ProductTracker
  | [], t => some t
  | tagline :: rest, t =>
    match tags_line_action manifests pat tagline with
    | none => none
    | some none => tags_init_go manifests pat rest t
    | some (some rows) =>
      tags_init_go manifests pat rest
        (rows.foldl (fun acc r => acc.insert r.1 r.2.2 none) t)

/-- `RepositoryManager.__init__` (tags.py). -/
def tags_RepositoryManager_init (server : TagsServer) (pat : String → Bool) :
    Option ProductTracker :=
  tags_init_go server.manifests pat server.listing_lines ⟨[]⟩

theorem tags_init_go_skip {manifests : List (String × Option (List String))}
    {pat : String → Bool} {bl : String}
    (hskip : tags_line_action manifests pat bl = some none)
    (pre post : List String) (t : ProductTracker) :
    tags_init_go manifests pat (pre ++ bl :: post) t =
      tags_init_go manifests pat (pre ++ post) t := by
  induction pre generalizing t with
  | nil =>
    simp only [List.nil_append]
    show tags_init_go manifests pat (bl :: post) t = _
    simp only [tags_init_go]
    rw [hskip]
  | cons hd tl ih =>
    simp only [List.cons_append]
    show tags_init_go manifests pat (hd :: (tl ++ bl :: post)) t =
      tags_init_go manifests pat (hd :: (tl ++ post)) t
    simp only [tags_init_go]
    rcases ha : tags_line_action manifests pat hd with _ | (_ | rows)
    · rfl
    · exact ih t
    · exact ih _

/-- C1 (counterexample): two tags are published; the first tag's manifest
has a data row with two fields instead of three. The repository load fails
as a whole — the second tag's data is lost too — because
`RepositoryManager.__init__` in shared_stack.py has no exception handling at
all. Loading the same repository without the malformed tag succeeds and
yields the second tag's data, showing it is the first tag's parse failure
that aborts everything. -/
theorem c1_single_tag_abort_cex :
    RepositoryManager_init
        ⟨["a.list", "b.list"],
         [("a", some (1, ["p q"])), ("b", some (2, ["p2 Linux64 v2"]))]⟩
        (fun _ => true) = none ∧
    RepositoryManager_init
        ⟨["b.list"],
         [("a", some (1, ["p q"])), ("b", some (2, ["p2 Linux64 v2"]))]⟩
        (fun _ => true) =
      some (⟨[("p2", ⟨"p2", [("v2", ["b"])]⟩)]⟩, [("b", 2)]) := by
  exact ⟨rfl, rfl⟩

/-- C1 (amended): only tags.py's loader degrades gracefully, and only for
fetch failures: when a selected listing line's manifest fetch fails
(`urlopen` raises, caught by the bare `except: continue`), the load result
is the same as if that listing line were absent — every other tag is still
processed. In shared_stack.py a fetch failure, and in both loaders a
manifest data row with the wrong field count, aborts the whole repository
load (see the counterexample). -/
theorem c1_fetch_failure_skips_tag :
    ∀ (manifests : List (String × Option (List String))) (pat : String → Bool)
      (pre post : List String) (bl w6 : String),
      5 < (py_split '"' bl).length →
      (py_split '"' bl)[6]? = some w6 →
      py_in ".list" (drop1 w6) = true →
      pat (drop1 w6) = true →
      alookup manifests (String.mk (take_before ".list".toList (drop1 w6).toList)) = none →
      tags_RepositoryManager_init ⟨pre ++ bl :: post, manifests⟩ pat =
        tags_RepositoryManager_init ⟨pre ++ post, manifests⟩ pat := by
  intro manifests pat pre post bl w6 hlen hget hin hpat hfetch
  have hskip : tags_line_action manifests pat bl = some none := by
    simp only [tags_line_action]
    rw [if_pos hlen, hget]
    show (if py_in ".list" (drop1 w6) = false then some none
          else if pat (drop1 w6) = false then some none
          else
            match alookup manifests
                (String.mk (take_before ".list".toList (drop1 w6).toList)) with
            | none => some none
            | some none => some none
            | some (some body) =>
              match tags_parse_manifest body with
              | none => none
              | some rows => some (some rows)) = some none
    rw [hin, hpat, hfetch]
    simp
  exact tags_init_go_skip hskip pre post ⟨[]⟩

/-- Witness for the amended C1 theorem: a realistic Apache-listing anchor
line whose manifest fetch fails is skipped without affecting the load. -/
theorem c1_fetch_failure_skips_tag_witness :
    tags_RepositoryManager_init
        ⟨["<img src=\"/icons/text.gif\" alt=\"[TXT]\"> <a href=\"v12_0.list\">v12_0.list</a>"],
         []⟩ (fun _ => true) =
      tags_RepositoryManager_init ⟨[], []⟩ (fun _ => true) := by
  exact c1_fetch_failure_skips_tag [] (fun _ => true) [] []
    "<img src=\"/icons/text.gif\" alt=\"[TXT]\"> <a href=\"v12_0.list\">v12_0.list</a>"
    ">v12_0.list</a>" (by decide) rfl rfl rfl rfl

/-- C9: manifest parsing skips the self-describing header line and comment
lines whose stripped text starts with '#', turns every other line into
exactly one (product, flavor, version) row when it has exactly three
whitespace-separated fields, fails the whole manifest on any other field
count, and on a concrete manifest of one header, two comments and three
data rows yields exactly the three data insertions, in order, with nothing
from the header or comments. -/
theorem c9_manifest_parsing :
    (∀ tag line rest, py_in (header_line tag) line = true →
        parse_manifest tag (line :: rest) = parse_manifest tag rest) ∧
    (∀ tag line rest cs, strip_chars line.toList = '#' :: cs →
        parse_manifest tag (line :: rest) = parse_manifest tag rest) ∧
    (∀ tag line rest p f v c cs, py_in (header_line tag) line = false →
        strip_chars line.toList = c :: cs → ¬ (c = '#') →
        split_ws line = [p, f, v] →
        parse_manifest tag (line :: rest) =
          (parse_manifest tag rest).map (fun l => (p, f, v) :: l)) ∧
    (∀ tag line rest c cs, py_in (header_line tag) line = false →
        strip_chars line.toList = c :: cs → ¬ (c = '#') →
        (split_ws line).length ≠ 3 →
        parse_manifest tag (line :: rest) = none) ∧
    (parse_manifest "w_2016_10"
        [header_line "w_2016_10", "# a", "# b",
         "p1 Linux64 v1", "p2 Linux64 v2", "p3 Linux64 v3"] =
      some [("p1", "Linux64", "v1"), ("p2", "Linux64", "v2"), ("p3", "Linux64", "v3")]) := by
  refine ⟨?_, ?_, ?_, ?_, ?_⟩
  · intro tag line rest h
    simp [parse_manifest, parse_manifest_line, h]
  · intro tag line rest cs hstrip
    simp only [String.toList] at hstrip
    by_cases hh : py_in (header_line tag) line = true
    · simp [parse_manifest, parse_manifest_line, hh]
    · have hh2 : py_in (header_line tag) line = false := by
        rwa [Bool.not_eq_true] at hh
      simp [parse_manifest, parse_manifest_line, hh2, hstrip]
  · intro tag line rest p f v c cs hh hstrip hc hsplit
    simp only [String.toList] at hstrip
    simp [parse_manifest, parse_manifest_line, hh, hstrip, hc, hsplit]
  · intro tag line rest c cs hh hstrip hc hlen
    simp only [String.toList] at hstrip
    rcases hsw : split_ws line with _ | ⟨a, _ | ⟨b, _ | ⟨d, _ | ⟨e, tl⟩⟩⟩⟩
    · simp [parse_manifest, parse_manifest_line, hh, hstrip, hc, hsw]
    · simp [parse_manifest, parse_manifest_line, hh, hstrip, hc, hsw]
    · simp [parse_manifest, parse_manifest_line, hh, hstrip, hc, hsw]
    · rw [hsw] at hlen
      simp at hlen
    · simp [parse_manifest, parse_manifest_line, hh, hstrip, hc, hsw]
  · rfl

/-- Witness for C9: the header line of its own tag is skipped. -/
theorem c9_manifest_parsing_witness :
    parse_manifest "w" [header_line "w", "a b c"] = parse_manifest "w" ["a b c"] :=
  c9_manifest_parsing.1 "w" (header_line "w") ["a b c"] rfl

/-- The externally visible state of the eups installation: what `eups list
--raw` prints and what `eups tags` prints, were they run now. -/
structure ExtState where
  listing : List String
  tag_names : List String
deriving DecidableEq

/-- The external package manager's reaction to the two mutating commands, as
an abstract oracle: how `eups distrib install` and `eups declare` change the
externally visible state. Theorems below quantify over every oracle. -/
structure EupsSem where
  install_eff : ExtState → String → Option String → Option String → ExtState
  declare_eff : ExtState → String → String → String → ExtState

/-- `StackManager` (tracking subset): its local `ProductTracker`, the log of
every `eups` command issued (`_run_cmd` invocations, as argv lists), and the
lines appended to `site/startup.py` by `add_global_tag`. -/
structure StackManager where
  _product_tracker : ProductTracker
  cmds : List (List String)
  startup_lines : List String

/-- `StackManager.tags_for_product`: delegate to the local tracker. -/
def StackManager.tags_for_product (sm : StackManager) (product_name : String) :
    Option (List String) :=
  sm._product_tracker.tags_for_product product_name

/-- `StackManager.apply_tag`: run `eups declare -t` and record the tag
locally, but only if the local tracker has that exact version; otherwise do
nothing at all. -/
def StackManager.apply_tag (sem : EupsSem) (ext : ExtState) (sm : StackManager)
    (product_name version tagname : String) : ExtState × StackManager :=
  if sm._product_tracker.has_version product_name version then
    (sem.declare_eff ext tagname product_name version,
     { sm with
        cmds := sm.cmds ++
          [["eups", "--nolocks", "declare", "-t", tagname, product_name, version]],
        _product_tracker := sm._product_tracker.insert product_name version (some tagname) })
  else (ext, sm)

/-- `StackManager.distrib_install`: run `eups distrib install`, let the
oracle update the external state, then `_refresh_products` rebuilds the
tracker wholesale from the new `eups list --raw` output (whose parse can
itself fail, propagating). -/
def StackManager.distrib_install (sem : EupsSem) (ext : ExtState) (sm : StackManager)
    (product_name : String) (version tag : Option String) :
    Option (ExtState × StackManager) :=
  let args := ["install", "--no-server-tags", product_name] ++
    (match version with | some v => [v] | none => []) ++
    (match tag with | some t => ["-t", t] | none => [])
  let sm1 := { sm with cmds := sm.cmds ++ [["eups", "--nolocks", "distrib"] ++ args] }
  let ext1 := sem.install_eff ext product_name version tag
  match refresh_tracker ext1.listing with
  | none => none
  | some tr => some (ext1, { sm1 with _product_tracker := tr })

/-- `StackManager.tags`: run `eups tags` and split its output; the external
state answers. -/
def StackManager.tags (ext : ExtState) (sm : StackManager) :
    List String × StackManager :=
  (ext.tag_names, { sm with cmds := sm.cmds ++ [["eups", "--nolocks", "tags"]] })

/-- `StackManager.add_global_tag`: append the `globalTags` line to
`site/startup.py`. Modelled oracle behaviour: the `eups tags` output
reflects the newly declared global tag afterwards. -/
def StackManager.add_global_tag (ext : ExtState) (sm : StackManager) (tagname : String) :
    ExtState × StackManager :=
  ({ ext with tag_names := ext.tag_names ++ [tagname] },
   { sm with startup_lines := sm.startup_lines ++
      ["hooks.config.Eups.globalTags += [\"" ++ tagname ++ "\"]\n"] })

/-- The reconciliation procedure's read-only view of the remote repository:
the tracker and tag→date map a `RepositoryManager` construction produced. -/
structure RepoView where
  tracker : ProductTracker
  tag_dates : List (String × Nat)

/-- `RepositoryManager.tags_for_product`. -/
def RepoView.tags_for_product (rm : RepoView) (product_name : String) :
    Option (List String) :=
  rm.tracker.tags_for_product product_name

/-- `RepositoryManager.products_for_tag`. -/
def RepoView.products_for_tag (rm : RepoView) (tag : String) :
    List (String × String) :=
  rm.tracker.products_for_tag tag

/-- The inner loop of Python's `max(iterable, key=...)`: keep the first
element seen whose key is strictly greater than the current best's; a
missing date is a `KeyError` (`none`). -/
def py_max_go (dates : List (String × Nat)) : List String → String → Nat → Option String
  | [], best, _ => some best
  | t :: rest, best, db =>
    match alookup dates t with
    | none => none
    | some dt => if db < dt then py_max_go dates rest t dt else py_max_go dates rest best db

/-- `max(available_tags, key=lambda tag: rm.tag_dates[tag])`: `none` models
the `ValueError` on an empty iterable (guarded by the caller) or a
`KeyError` from a missing date. -/
def py_max_by_date (l : List String) (dates : List (String × Nat)) : Option String :=
  match l with
  | [] => none
  | x :: xs =>
    match alookup dates x with
    | none => none
    | some dx => py_max_go dates xs x dx

/-- Lines 576-583 of shared_stack.py's `main`: intersect the server tags
with the now-installed tags, pick the tag with the latest recorded manifest
date, and call `apply_tag(sub_product, version, "current")` for every pair
the remote manifest associates with that tag. -/
def mark_current (sem : EupsSem) (rm : RepoView) (product : String)
    (server_tags : List String) (ext : ExtState) (sm : StackManager) :
    Option (ExtState × StackManager) :=
  match sm.tags_for_product product with
  | none => none
  | some inst =>
    let available := server_tags.filter (fun t => t ∈ inst)
    if available = [] then some (ext, sm)
    else
      match py_max_by_date available rm.tag_dates with
      | none => none
      | some current_tag =>
        some ((rm.products_for_tag current_tag).foldl
          (fun st pr => StackManager.apply_tag sem st.1 st.2 pr.1 pr.2 "current")
          (ext, sm))

/-- Lines 565-574 of shared_stack.py's `main`: install one candidate tag,
declare it globally if `eups tags` does not know it yet, then apply it to
every (sub-product, version) of the remote manifest. -/
def install_candidate (sem : EupsSem) (rm : RepoView) (product tag : String)
    (st : ExtState × StackManager) : Option (ExtState × StackManager) :=
  match StackManager.distrib_install sem st.1 st.2 product none (some tag) with
  | none => none
  | some (ext1, sm1) =>
    let known := StackManager.tags ext1 sm1
    let st2 := if tag ∈ known.1 then (ext1, known.2)
               else StackManager.add_global_tag ext1 known.2 tag
    some ((rm.products_for_tag tag).foldl
      (fun st pr => StackManager.apply_tag sem st.1 st.2 pr.1 pr.2 tag) st2)

/-- One iteration of the `for product in PRODUCTS` loop of `main`
(lines 559-583). -/
def reconcile_product (sem : EupsSem) (rm : RepoView) (ext : ExtState)
    (sm : StackManager) (product : String) : Option (ExtState × StackManager) :=
  match rm.tags_for_product product with
  | none => none
  | some server_tags =>
    match StackManager.tags_for_product sm product with
    | none => none
    | some installed_tags =>
      let candidate_tags := server_tags.filter (fun t => ¬ (t ∈ installed_tags))
      match candidate_tags.foldlM
          (fun st tag => install_candidate sem rm product tag st) (ext, sm) with
      | none => none
      | some st2 => mark_current sem rm product server_tags st2.1 st2.2

/-- The whole reconciliation pass of `main` over the configured products. -/
def reconcile_run (sem : EupsSem) (rm : RepoView) (products : List String)
    (st : ExtState × StackManager) : Option (ExtState × StackManager) :=
  products.foldlM (fun st p => reconcile_product sem rm st.1 st.2 p) st

/-- The identity oracle: external state unaffected by installs and
declares — adequate for runs that re-declare already-present tags. -/
def sem0 : EupsSem := ⟨fun e _ _ _ => e, fun e _ _ _ => e⟩

/-- An empty external state. -/
def ext0 : ExtState := ⟨[], []⟩

/-- C8: `apply_tag` on a (product, version) the local tracker does not have
is a no-op: no command is issued, the external state and the whole
`StackManager` (tracker, command log, startup file) are unchanged, and no
exception is raised (the operation is total). -/
theorem c8_apply_tag_noop :
    ∀ (sem : EupsSem) (ext : ExtState) (sm : StackManager) (p v tg : String),
      sm._product_tracker.has_version p v = false →
      StackManager.apply_tag sem ext sm p v tg = (ext, sm) := by
  intro sem ext sm p v tg h
  unfold StackManager.apply_tag
  rw [h]
  simp

/-- Witness for C8 at the empty tracker. -/
theorem c8_apply_tag_noop_witness :
    StackManager.apply_tag sem0 ext0 ⟨⟨[]⟩, [], []⟩ "p" "v" "t" = (ext0, ⟨⟨[]⟩, [], []⟩) :=
  c8_apply_tag_noop sem0 ext0 ⟨⟨[]⟩, [], []⟩ "p" "v" "t" rfl

theorem apply_tag_step (sem : EupsSem) (ext : ExtState) (sm : StackManager) (p v tg : String) :
    ((StackManager.apply_tag sem ext sm p v tg).2.startup_lines = sm.startup_lines) ∧
    (∃ newc, (StackManager.apply_tag sem ext sm p v tg).2.cmds = sm.cmds ++ newc ∧
      ∀ c ∈ newc, c = ["eups", "--nolocks", "declare", "-t", tg, p, v]) ∧
    (trackerWF sm._product_tracker →
      trackerWF (StackManager.apply_tag sem ext sm p v tg).2._product_tracker) ∧
    (∀ q w x, tracker_vtag sm._product_tracker q w x →
      tracker_vtag (StackManager.apply_tag sem ext sm p v tg).2._product_tracker q w x) ∧
    (∀ q w, tracker_hasv sm._product_tracker q w →
      tracker_hasv (StackManager.apply_tag sem ext sm p v tg).2._product_tracker q w) ∧
    (tg ≠ "" → sm._product_tracker.has_version p v = true →
      tracker_vtag (StackManager.apply_tag sem ext sm p v tg).2._product_tracker p v tg ∧
      ["eups", "--nolocks", "declare", "-t", tg, p, v] ∈
        (StackManager.apply_tag sem ext sm p v tg).2.cmds) := by
  unfold StackManager.apply_tag
  by_cases hv : sm._product_tracker.has_version p v = true
  · rw [if_pos hv]
    refine ⟨rfl, ⟨[["eups", "--nolocks", "declare", "-t", tg, p, v]], rfl, by simp⟩,
      ?_, ?_, ?_, ?_⟩
    · intro hw
      exact insert_wf hw p v (some tg)
    · intro q w x h
      exact (insert_vtag sm._product_tracker p v (some tg) q w x).mpr (Or.inl h)
    · intro q w h
      exact (insert_hasv sm._product_tracker p v (some tg) q w).mpr (Or.inl h)
    · intro htg _
      constructor
      · exact (insert_vtag sm._product_tracker p v (some tg) p v tg).mpr
          (Or.inr ⟨rfl, rfl, rfl, htg⟩)
      · simp
  · rw [if_neg hv]
    refine ⟨rfl, ⟨[], by simp, by simp⟩, fun h => h, fun q w x h => h, fun q w h => h, ?_⟩
    intro _ hvt
    exact absurd hvt hv

theorem apply_fold_spec (sem : EupsSem) (tg : String) :
    ∀ (pairs : List (String × String)) (st : ExtState × StackManager),
      ((pairs.foldl (fun st pr => StackManager.apply_tag sem st.1 st.2 pr.1 pr.2 tg)
          st).2.startup_lines = st.2.startup_lines) ∧
      (∃ newc,
        (pairs.foldl (fun st pr => StackManager.apply_tag sem st.1 st.2 pr.1 pr.2 tg)
          st).2.cmds = st.2.cmds ++ newc ∧
        ∀ c ∈ newc, ∃ p v, c = ["eups", "--nolocks", "declare", "-t", tg, p, v]) ∧
      (trackerWF st.2._product_tracker →
        trackerWF ((pairs.foldl (fun st pr => StackManager.apply_tag sem st.1 st.2 pr.1 pr.2 tg)
          st).2._product_tracker)) ∧
      (∀ q w x, tracker_vtag st.2._product_tracker q w x →
        tracker_vtag ((pairs.foldl (fun st pr => StackManager.apply_tag sem st.1 st.2 pr.1 pr.2 tg)
          st).2._product_tracker) q w x) ∧
      (∀ q w, tracker_hasv st.2._product_tracker q w →
        tracker_hasv ((pairs.foldl (fun st pr => StackManager.apply_tag sem st.1 st.2 pr.1 pr.2 tg)
          st).2._product_tracker) q w) ∧
      (tg ≠ "" → ∀ pr ∈ pairs, tracker_hasv st.2._product_tracker pr.1 pr.2 →
        tracker_vtag ((pairs.foldl (fun st pr => StackManager.apply_tag sem st.1 st.2 pr.1 pr.2 tg)
          st).2._product_tracker) pr.1 pr.2 tg ∧
        ["eups", "--nolocks", "declare", "-t", tg, pr.1, pr.2] ∈
          (pairs.foldl (fun st pr => StackManager.apply_tag sem st.1 st.2 pr.1 pr.2 tg)
            st).2.cmds) := by
  intro pairs
  induction pairs with
  | nil =>
    intro st
    refine ⟨rfl, ⟨[], by simp, by simp⟩, fun h => h, fun q w x h => h, fun q w h => h, ?_⟩
    intro _ pr hpr
    exact absurd hpr (List.not_mem_nil pr)
  | cons pr rest ih =>
    intro st
    simp only [List.foldl_cons]
    obtain ⟨s1, ⟨nc1, hc1, hd1⟩, w1, m1, n1, f1⟩ :=
      apply_tag_step sem st.1 st.2 pr.1 pr.2 tg
    obtain ⟨s2, ⟨nc2, hc2, hd2⟩, w2, m2, n2, f2⟩ :=
      ih (StackManager.apply_tag sem st.1 st.2 pr.1 pr.2 tg)
    refine ⟨s2.trans s1, ⟨nc1 ++ nc2, ?_, ?_⟩, fun h => w2 (w1 h),
      fun q w x h => m2 q w x (m1 q w x h), fun q w h => n2 q w (n1 q w h), ?_⟩
    · rw [hc2, hc1, List.append_assoc]
    · intro c hc
      rcases List.mem_append.mp hc with hc | hc
      · exact ⟨pr.1, pr.2, hd1 c hc⟩
      · exact hd2 c hc
    · intro htg pr2 hpr2 hhv
      rcases List.mem_cons.mp hpr2 with hpr2 | hpr2
      · subst hpr2
        have hbool : st.2._product_tracker.has_version pr2.1 pr2.2 = true :=
          (has_version_iff st.2._product_tracker pr2.1 pr2.2).mpr hhv
        obtain ⟨hvt, hcmd⟩ := f1 htg hbool
        refine ⟨m2 pr2.1 pr2.2 tg hvt, ?_⟩
        rw [hc2]
        exact List.mem_append.mpr (Or.inl hcmd)
      · exact f2 htg pr2 hpr2 (n1 pr2.1 pr2.2 hhv)

theorem py_max_go_spec (dates : List (String × Nat)) :
    ∀ (rest : List String) (best : String) (db : Nat),
      alookup dates best = some db →
      (∀ t ∈ rest, (alookup dates t).isSome) →
      ∃ c dc, py_max_go dates rest best db = some c ∧ (c ∈ rest ∨ c = best) ∧
        alookup dates c = some dc ∧ db ≤ dc ∧
        (∀ t dt, t ∈ rest → alookup dates t = some dt → dt ≤ dc) := by
  intro rest
  induction rest with
  | nil =>
    intro best db hbest _
    exact ⟨best, db, rfl, Or.inr rfl, hbest, Nat.le_refl db, fun t dt ht => absurd ht (by simp)⟩
  | cons t rest ih =>
    intro best db hbest hall
    have ht : (alookup dates t).isSome := hall t (by simp)
    obtain ⟨dt, hdt⟩ := Option.isSome_iff_exists.mp ht
    have hall2 : ∀ u ∈ rest, (alookup dates u).isSome := by
      intro u hu
      exact hall u (List.mem_cons_of_mem t hu)
    rcases Nat.lt_or_ge db dt with hlt | hge
    · obtain ⟨c, dc, heq, hmem, hdc, hle, hmax⟩ := ih t dt hdt hall2
      refine ⟨c, dc, ?_, ?_, hdc, ?_, ?_⟩
      · simp only [py_max_go, hdt, if_pos hlt]
        exact heq
      · rcases hmem with hmem | hmem
        · exact Or.inl (List.mem_cons_of_mem t hmem)
        · exact Or.inl (hmem ▸ List.mem_cons_self t rest)
      · exact Nat.le_trans (Nat.le_of_lt hlt) hle
      · intro u du hu hdu
        rcases List.mem_cons.mp hu with hu | hu
        · subst hu
          rw [hdt] at hdu
          injection hdu with hdu
          rw [← hdu]
          exact hle
        · exact hmax u du hu hdu
    · obtain ⟨c, dc, heq, hmem, hdc, hle, hmax⟩ := ih best db hbest hall2
      refine ⟨c, dc, ?_, ?_, hdc, hle, ?_⟩
      · simp only [py_max_go, hdt, if_neg (Nat.not_lt.mpr hge)]
        exact heq
      · rcases hmem with hmem | hmem
        · exact Or.inl (List.mem_cons_of_mem t hmem)
        · exact Or.inr hmem
      · intro u du hu hdu
        rcases List.mem_cons.mp hu with hu | hu
        · subst hu
          rw [hdt] at hdu
          injection hdu with hdu
          rw [← hdu]
          exact Nat.le_trans hge hle
        · exact hmax u du hu hdu

theorem py_max_by_date_spec {l : List String} (dates : List (String × Nat))
    (hne : l ≠ []) (hall : ∀ t ∈ l, (alookup dates t).isSome) :
    ∃ c dc, py_max_by_date l dates = some c ∧ c ∈ l ∧ alookup dates c = some dc ∧
      (∀ t dt, t ∈ l → alookup dates t = some dt → dt ≤ dc) := by
  rcases l with _ | ⟨x, xs⟩
  · exact absurd rfl hne
  · obtain ⟨dx, hdx⟩ := Option.isSome_iff_exists.mp (hall x (by simp))
    have hall2 : ∀ u ∈ xs, (alookup dates u).isSome := by
      intro u hu
      exact hall u (List.mem_cons_of_mem x hu)
    obtain ⟨c, dc, heq, hmem, hdc, hle, hmax⟩ := py_max_go_spec dates xs x dx hdx hall2
    refine ⟨c, dc, ?_, ?_, hdc, ?_⟩
    · simp only [py_max_by_date, hdx]
      exact heq
    · rcases hmem with hmem | hmem
      · exact List.mem_cons_of_mem x hmem
      · exact hmem ▸ List.mem_cons_self x xs
    · intro t dt ht hdt
      rcases List.mem_cons.mp ht with ht | ht
      · subst ht
        rw [hdx] at hdt
        injection hdt with hdt
        rw [← hdt]
        exact hle
      · exact hmax t dt ht hdt

theorem mark_current_spec (sem : EupsSem) (rm : RepoView) (p : String)
    (serv : List String) (ext : ExtState) (sm : StackManager) {inst : List String}
    (hinst : StackManager.tags_for_product sm p = some inst)
    (hdates : ∀ t ∈ serv.filter (fun t => t ∈ inst), (alookup rm.tag_dates t).isSome) :
    ∃ ext2 sm2, mark_current sem rm p serv ext sm = some (ext2, sm2) ∧
      sm2.startup_lines = sm.startup_lines ∧
      (∃ newc, sm2.cmds = sm.cmds ++ newc ∧
        ∀ c ∈ newc, ∃ q v, c = ["eups", "--nolocks", "declare", "-t", "current", q, v]) ∧
      (trackerWF sm._product_tracker → trackerWF sm2._product_tracker) ∧
      (∀ q w x, tracker_vtag sm._product_tracker q w x →
        tracker_vtag sm2._product_tracker q w x) := by
  by_cases he : serv.filter (fun t => t ∈ inst) = []
  · refine ⟨ext, sm, ?_, rfl, ⟨[], by simp, by simp⟩, fun h => h, fun q w x h => h⟩
    simp only [mark_current, hinst, he]
    simp
  · obtain ⟨c, dc, hmax, hcm, hdc, hmaxall⟩ := py_max_by_date_spec rm.tag_dates he hdates
    obtain ⟨s1, ⟨nc, hc, hd⟩, hwspec, hmspec, _, _⟩ :=
      apply_fold_spec sem "current" (rm.products_for_tag c) (ext, sm)
    refine ⟨((rm.products_for_tag c).foldl
        (fun st pr => StackManager.apply_tag sem st.1 st.2 pr.1 pr.2 "current") (ext, sm)).1,
      ((rm.products_for_tag c).foldl
        (fun st pr => StackManager.apply_tag sem st.1 st.2 pr.1 pr.2 "current") (ext, sm)).2,
      ?_, s1, ⟨nc, hc, hd⟩, hwspec, hmspec⟩
    simp only [mark_current, hinst]
    rw [if_neg he, hmax]

theorem reconcile_product_converged (sem : EupsSem) (rm : RepoView) (ext : ExtState)
    (sm : StackManager) (p : String) {serv inst : List String}
    (hserv : rm.tags_for_product p = some serv)
    (hinst : StackManager.tags_for_product sm p = some inst)
    (hsub : ∀ t ∈ serv, t ∈ inst)
    (hdates : ∀ t ∈ serv, (alookup rm.tag_dates t).isSome) :
    ∃ ext2 sm2, reconcile_product sem rm ext sm p = some (ext2, sm2) ∧
      sm2.startup_lines = sm.startup_lines ∧
      (∃ newc, sm2.cmds = sm.cmds ++ newc ∧
        ∀ c ∈ newc, ∃ q v, c = ["eups", "--nolocks", "declare", "-t", "current", q, v]) ∧
      (trackerWF sm._product_tracker → trackerWF sm2._product_tracker) ∧
      (∀ q w x, tracker_vtag sm._product_tracker q w x →
        tracker_vtag sm2._product_tracker q w x) := by
  have hcand : serv.filter (fun t => ¬ (t ∈ inst)) = [] := by
    rw [List.filter_eq_nil_iff]
    intro t htm
    simp [hsub t htm]
  have hdates2 : ∀ t ∈ serv.filter (fun t => t ∈ inst), (alookup rm.tag_dates t).isSome := by
    intro t htm
    exact hdates t (List.mem_filter.mp htm).1
  obtain ⟨ext2, sm2, heq, hs, hcm, hw, hm⟩ := mark_current_spec sem rm p serv ext sm hinst hdates2
  refine ⟨ext2, sm2, ?_, hs, hcm, hw, hm⟩
  simp only [reconcile_product, hserv, hinst, hcand, List.foldlM, Option.pure_def]
  exact heq

/-- C3: whenever the intersection of the server tags and the locally
installed tags for a product is non-empty (and each such tag has a recorded
manifest date), the mark-current step succeeds and selects a tag `c` of that
intersection whose recorded date is greatest; for every (sub-product,
version) pair the remote manifest associates with `c` that is present
locally, the version ends up carrying the tag "current" in the local tracker
and a `declare -t current` command is issued for it. In particular, with
available tags w_2016_10 (date 2016-03-10) and w_2016_12 (date 2016-03-24)
the procedure selects w_2016_12. -/
theorem c3_current_selection :
    (∀ (sem : EupsSem) (rm : RepoView) (product : String) (server_tags : List String)
        (ext : ExtState) (sm : StackManager) (inst : List String),
      StackManager.tags_for_product sm product = some inst →
      server_tags.filter (fun t => t ∈ inst) ≠ [] →
      (∀ t ∈ server_tags.filter (fun t => t ∈ inst), (alookup rm.tag_dates t).isSome) →
      ∃ c dc ext2 sm2,
        mark_current sem rm product server_tags ext sm = some (ext2, sm2) ∧
        py_max_by_date (server_tags.filter (fun t => t ∈ inst)) rm.tag_dates = some c ∧
        c ∈ server_tags.filter (fun t => t ∈ inst) ∧
        alookup rm.tag_dates c = some dc ∧
        (∀ t dt, t ∈ server_tags.filter (fun t => t ∈ inst) →
          alookup rm.tag_dates t = some dt → dt ≤ dc) ∧
        (∀ pr ∈ rm.products_for_tag c,
          sm._product_tracker.has_version pr.1 pr.2 = true →
          tracker_vtag sm2._product_tracker pr.1 pr.2 "current" ∧
          ["eups", "--nolocks", "declare", "-t", "current", pr.1, pr.2] ∈ sm2.cmds)) ∧
    py_max_by_date ["w_2016_10", "w_2016_12"]
        [("w_2016_10", 20160310), ("w_2016_12", 20160324)] = some "w_2016_12" := by
  constructor
  · intro sem rm product server_tags ext sm inst hinst hne hdates
    obtain ⟨c, dc, hmax, hcm, hdc, hmaxall⟩ := py_max_by_date_spec rm.tag_dates hne hdates
    obtain ⟨_, _, _, _, _, ffold⟩ :=
      apply_fold_spec sem "current" (rm.products_for_tag c) (ext, sm)
    refine ⟨c, dc,
      ((rm.products_for_tag c).foldl
        (fun st pr => StackManager.apply_tag sem st.1 st.2 pr.1 pr.2 "current") (ext, sm)).1,
      ((rm.products_for_tag c).foldl
        (fun st pr => StackManager.apply_tag sem st.1 st.2 pr.1 pr.2 "current") (ext, sm)).2,
      ?_, hmax, hcm, hdc, hmaxall, ?_⟩
    · simp only [mark_current, hinst]
      rw [if_neg hne, hmax]
    · intro pr hpr hhv
      exact ffold (by decide) pr hpr
        ((has_version_iff sm._product_tracker pr.1 pr.2).mp hhv)
  · rfl

/-- The remote view of the C3 witness scenario. -/
def c3_rm : RepoView :=
  ⟨⟨[("lsst_distrib", Product.mk "lsst_distrib" [("w1", ["w_2016_12"])])]⟩,
   [("w_2016_10", 20160310), ("w_2016_12", 20160324)]⟩

/-- The local view of the C3 witness scenario. -/
def c3_sm : StackManager :=
  ⟨⟨[("lsst_distrib", Product.mk "lsst_distrib" [("w1", ["w_2016_10", "w_2016_12"])])]⟩,
   [], []⟩

/-- Witness for C3 at a concrete two-tag scenario. -/
theorem c3_current_selection_witness :
    (mark_current sem0 c3_rm "lsst_distrib" ["w_2016_10", "w_2016_12"] ext0 c3_sm).isSome
      = true := by
  obtain ⟨c, dc, ext2, sm2, heq, _⟩ := c3_current_selection.1 sem0 c3_rm "lsst_distrib"
    ["w_2016_10", "w_2016_12"] ext0 c3_sm ["w_2016_10", "w_2016_12"] rfl
    (by decide) (by decide)
  rw [heq]
  rfl

/-- The remote view of the C2 scenario: one product with one published tag. -/
def c2_rm : RepoView :=
  ⟨⟨[("lsst_distrib", Product.mk "lsst_distrib" [("w1", ["w_2016_10"])])]⟩,
   [("w_2016_10", 20160310)]⟩

/-- The local view of the C2 scenario: the tag is already installed and its
version already carries "current", so there is nothing left to reconcile. -/
def c2_sm : StackManager :=
  ⟨⟨[("lsst_distrib", Product.mk "lsst_distrib" [("w1", ["w_2016_10", "current"])])]⟩,
   [], []⟩

/-- The declare command the C2 runs issue. -/
def c2_declare_cmd : List String :=
  ["eups", "--nolocks", "declare", "-t", "current", "lsst_distrib", "w1"]

/-- C2 (counterexample): from a fully converged state (no candidate tags,
the latest tag already marked current), a reconciliation pass leaves the
tracker and external state unchanged — so the second run starts from the
same state as the first — yet BOTH runs issue one `eups declare -t current`
call each, because `apply_tag` re-declares unconditionally whenever the
version is present. The second run therefore performs one mutating
package-manager call, not zero. -/
theorem c2_second_run_declares_cex :
    reconcile_run sem0 c2_rm ["lsst_distrib"] (ext0, c2_sm) =
      some (ext0, ⟨c2_sm._product_tracker, [c2_declare_cmd], []⟩) ∧
    reconcile_run sem0 c2_rm ["lsst_distrib"]
        (ext0, ⟨c2_sm._product_tracker, [c2_declare_cmd], []⟩) =
      some (ext0, ⟨c2_sm._product_tracker, [c2_declare_cmd, c2_declare_cmd], []⟩) ∧
    "declare" ∈ c2_declare_cmd := by
  exact ⟨rfl, rfl, by decide⟩

/-- C2 (amended): a reconciliation run over products whose server tags are
all already installed locally (the situation of a second run with no change
in server state) issues zero `eups distrib install` calls and writes no
global-tag declarations — but it is not free of mutating calls: every
command it issues is a `declare -t current` re-application for the
date-maximal available tag, so the second run re-declares "current" instead
of doing nothing (zero mutating calls only when no tags are available at
all). This holds for every oracle behaviour of the package manager. -/
theorem c2_converged_run_only_current_declares :
    ∀ (sem : EupsSem) (rm : RepoView) (products : List String) (ext : ExtState)
      (sm : StackManager),
      trackerWF sm._product_tracker →
      trackerWF rm.tracker →
      (∀ p ∈ products, ∀ x, tracker_tag rm.tracker p x →
        tracker_tag sm._product_tracker p x) →
      (∀ p ∈ products, ∀ x, tracker_tag rm.tracker p x →
        (alookup rm.tag_dates x).isSome) →
      ∃ ext2 sm2, reconcile_run sem rm products (ext, sm) = some (ext2, sm2) ∧
        sm2.startup_lines = sm.startup_lines ∧
        ∃ newc, sm2.cmds = sm.cmds ++ newc ∧
          ∀ c ∈ newc, ∃ q v, c = ["eups", "--nolocks", "declare", "-t", "current", q, v] := by
  intro sem rm products
  induction products with
  | nil =>
    intro ext sm _ _ _ _
    exact ⟨ext, sm, rfl, rfl, [], by simp, by simp⟩
  | cons p ps ih =>
    intro ext sm hwf hwfrm hconv hdates
    obtain ⟨serv, hserv0⟩ := tags_for_product_isSome hwfrm p
    obtain ⟨inst, hinst0⟩ := tags_for_product_isSome hwf p
    have hserv : rm.tags_for_product p = some serv := hserv0
    have hinst : StackManager.tags_for_product sm p = some inst := hinst0
    have hsub : ∀ t ∈ serv, t ∈ inst := by
      intro t htm
      exact (mem_tags_for_product hwf hinst0 t).mpr
        (hconv p (List.mem_cons_self p ps) t ((mem_tags_for_product hwfrm hserv0 t).mp htm))
    have hdt : ∀ t ∈ serv, (alookup rm.tag_dates t).isSome := by
      intro t htm
      exact hdates p (List.mem_cons_self p ps) t
        ((mem_tags_for_product hwfrm hserv0 t).mp htm)
    obtain ⟨ext1, sm1, hstep, hs1, ⟨nc1, hc1, hd1⟩, hwp, hmono⟩ :=
      reconcile_product_converged sem rm ext sm p hserv hinst hsub hdt
    have hconv1 : ∀ q ∈ ps, ∀ x, tracker_tag rm.tracker q x →
        tracker_tag sm1._product_tracker q x := by
      intro q hq x ht
      obtain ⟨v, hv⟩ := hconv q (List.mem_cons_of_mem p hq) x ht
      exact ⟨v, hmono q v x hv⟩
    have hdates1 : ∀ q ∈ ps, ∀ x, tracker_tag rm.tracker q x →
        (alookup rm.tag_dates x).isSome := by
      intro q hq x ht
      exact hdates q (List.mem_cons_of_mem p hq) x ht
    obtain ⟨ext2, sm2, hrun, hs2, nc2, hc2, hd2⟩ := ih ext1 sm1 (hwp hwf) hwfrm hconv1 hdates1
    refine ⟨ext2, sm2, ?_, hs2.trans hs1, nc1 ++ nc2, ?_, ?_⟩
    · show reconcile_run sem rm (p :: ps) (ext, sm) = some (ext2, sm2)
      simp only [reconcile_run, List.foldlM] at hrun ⊢
      have hstep2 : reconcile_product sem rm (ext, sm).1 (ext, sm).2 p = some (ext1, sm1) :=
        hstep
      rw [hstep2]
      simp only [Option.bind_eq_bind, Option.some_bind] at hrun ⊢
      exact hrun
    · rw [hc2, hc1, List.append_assoc]
    · intro c hcc
      rcases List.mem_append.mp hcc with h | h
      · exact hd1 c h
      · exact hd2 c h

theorem c2_sm_wf : trackerWF c2_sm._product_tracker := by
  intro q prod h
  by_cases hq : "lsst_distrib" = q
  · subst hq
    simp [c2_sm, alookup] at h
    rw [← h]
    unfold ProductWF
    exact ⟨by decide, by decide⟩
  · simp [c2_sm, alookup, hq] at h

theorem c2_rm_wf : trackerWF c2_rm.tracker := by
  intro q prod h
  by_cases hq : "lsst_distrib" = q
  · subst hq
    simp [c2_rm, alookup] at h
    rw [← h]
    unfold ProductWF
    exact ⟨by decide, by decide⟩
  · simp [c2_rm, alookup, hq] at h

theorem c2_rm_tag_char (p x : String) (h : tracker_tag c2_rm.tracker p x) :
    p = "lsst_distrib" ∧ x = "w_2016_10" := by
  obtain ⟨v, prod, ts, h1, h2, h3⟩ := h
  by_cases hp : "lsst_distrib" = p
  · subst hp
    simp [c2_rm, alookup] at h1
    rw [← h1] at h2
    by_cases hv : "w1" = v
    · subst hv
      simp [alookup] at h2
      rw [← h2] at h3
      simp at h3
      exact ⟨rfl, h3⟩
    · simp [alookup, hv] at h2
  · simp [c2_rm, alookup, hp] at h1

/-- Witness for the amended C2 theorem at the converged one-product
scenario. -/
theorem c2_converged_run_only_current_declares_witness :
    (reconcile_run sem0 c2_rm ["lsst_distrib"] (ext0, c2_sm)).isSome = true := by
  have hconv : ∀ p ∈ ["lsst_distrib"], ∀ x, tracker_tag c2_rm.tracker p x →
      tracker_tag c2_sm._product_tracker p x := by
    intro p _ x hx
    obtain ⟨hp, hx10⟩ := c2_rm_tag_char p x hx
    subst hp
    subst hx10
    exact ⟨"w1", Product.mk "lsst_distrib" [("w1", ["w_2016_10", "current"])],
      ["w_2016_10", "current"], rfl, rfl, by decide⟩
  have hdates : ∀ p ∈ ["lsst_distrib"], ∀ x, tracker_tag c2_rm.tracker p x →
      (alookup c2_rm.tag_dates x).isSome := by
    intro p _ x hx
    obtain ⟨_, hx10⟩ := c2_rm_tag_char p x hx
    subst hx10
    rfl
  obtain ⟨ext2, sm2, heq, _⟩ := c2_converged_run_only_current_declares sem0 c2_rm
    ["lsst_distrib"] ext0 c2_sm c2_sm_wf c2_rm_wf hconv hdates
  rw [heq]
  rfl

end SharedStack
